import Mathlib

/-!
Shallow embedding of the ImageJ result parser (imagej_parse/parse.py).

An input file is modelled as its header line, already split on tabs into a
list of field names, together with its data lines.  Each data line is the
list of its whitespace-separated fields.  A field is classified by how the
Python string would convert: intF n is a string accepted by int(), floatF q
is a string accepted by float() but not by int() (for example the decimal
representations that str produces for floats), and strF s is any other
string.  Fallible Python code (escaping exceptions such as ValueError,
TypeError, IndexError, NameError) is modelled with Option: none is an
escaping exception.
-/

inductive PField where
  | intF : Int → PField
  | floatF : ℚ → PField
  | strF : String → PField
deriving DecidableEq

/-- Python int(field): succeeds only on integer literals. -/
def PField.toInt : PField → Option Int
  | .intF n => some n
  | _ => none

/-- Python float(field): succeeds on integer and float literals. -/
def PField.toFloat : PField → Option ℚ
  | .intF n => some (n : ℚ)
  | .floatF q => some q
  | _ => none

/-- A tab-delimited input file: the header fields and the data lines. -/
structure PFile where
  header : List String
  rows : List (List PField)
deriving DecidableEq

/-- Python list.index: position of the first occurrence; none models the
ValueError raised when the element is absent. -/
def pyIndex : List String → String → Option Nat
  | [], _ => none
  | x :: xs, s => if x = s then some 0 else Option.map (fun i => i + 1) (pyIndex xs s)

/-- get_indices_from_header from parse.py: positions of the frame header and
of the data header among the header fields. -/
def get_indices_from_header (header : List String) (fh dte : String) : Option (Nat × Nat) :=
  match pyIndex header fh, pyIndex header dte with
  | some i, some j => some (i, j)
  | _, _ => none

/-- extract_from_line from parse.py: the fields at the two given positions;
none models the IndexError raised when a position is out of range. -/
def extract_from_line (line : List PField) (fi dj : Nat) : Option (PField × PField) :=
  match line.get? fi, line.get? dj with
  | some a, some b => some (a, b)
  | _, _ => none

/-- Loop of count_rows from parse.py over the data lines after the first,
carrying the Python line index idx (the first data line has idx 1, so the
scan here starts at idx 2).  Returns some none when the loop falls off the
end of the file (Python returns None); returns some (some k) when a line
whose frame field differs from the first line's is found. -/
def count_rows_aux (fi dj : Nat) (initial : Int) : Nat → List (List PField) → Option (Option Nat)
  | _, [] => some none
  | idx, line :: rest =>
    match extract_from_line line fi dj with
    | none => none
    | some (a, _) =>
      match PField.toInt a with
      | none => none
      | some n =>
        if n ≠ initial then some (some (idx - 1))
        else count_rows_aux fi dj initial (idx + 1) rest

/-- count_rows from parse.py: number of regions of interest, inferred as the
index of the first data line whose frame field differs from the first data
line's frame field. -/
def count_rows (f : PFile) (fh dte : String) : Option (Option Nat) :=
  match get_indices_from_header f.header fh dte with
  | none => none
  | some (fi, dj) =>
    match f.rows with
    | [] => some none
    | line :: rest =>
      match extract_from_line line fi dj with
      | none => none
      | some (a, _) =>
        match PField.toInt a with
        | none => none
        | some initial => count_rows_aux fi dj initial 2 rest

/-- Loop of count_frames from parse.py over the data lines after the first:
increments the counter whenever the frame field differs from the previous
line's frame field. -/
def count_frames_aux (fi dj : Nat) : Int → Nat → List (List PField) → Option Nat
  | _, c, [] => some c
  | prev, c, line :: rest =>
    match extract_from_line line fi dj with
    | none => none
    | some (a, _) =>
      match PField.toInt a with
      | none => none
      | some n =>
        if n ≠ prev then count_frames_aux fi dj n (c + 1) rest
        else count_frames_aux fi dj prev c rest

/-- count_frames from parse.py: one plus the number of adjacent frame-id
changes.  A file with no data lines leaves the Python counter unassigned,
a NameError, modelled as none. -/
def count_frames (f : PFile) (fh dte : String) : Option Nat :=
  match get_indices_from_header f.header fh dte with
  | none => none
  | some (fi, dj) =>
    match f.rows with
    | [] => none
    | line :: rest =>
      match extract_from_line line fi dj with
      | none => none
      | some (a, _) =>
        match PField.toInt a with
        | none => none
        | some n => count_frames_aux fi dj n 1 rest

/-- Python subscript assignment mat[i][j] = v on a list-of-lists matrix;
none models the IndexError raised when an index is out of range. -/
def setAt (mat : List (List (Option ℚ))) (i j : Nat) (v : ℚ) :
    Option (List (List (Option ℚ))) :=
  match mat.get? i with
  | none => none
  | some row =>
    if j < row.length then some (mat.set i (row.set j (some v))) else none

/-- Python map(list, zip(*mat)): transpose truncating to the shortest row;
zip of no lists is empty. -/
def zipTranspose {α : Type} (mat : List (List α)) : List (List α) :=
  match mat with
  | [] => []
  | first :: rest =>
    (List.range ((rest.map List.length).foldl Nat.min first.length)).map
      (fun j => (first :: rest).filterMap (fun row => row.get? j))

/-- Fill loop of file_parse from parse.py for the data lines after the
first: the region counter wraps to 0 when it reaches nroi, the frame
counter increments when the frame id changes, and the value is stored at
matrix position (frame counter, region counter). -/
def fill_aux (fi dj nroi : Nat) :
    List (List PField) → Nat → Nat → Int → List (List (Option ℚ)) →
    Option (List (List (Option ℚ)))
  | [], _, _, _, mat => some mat
  | line :: rest, roi, fc, prev, mat =>
    match extract_from_line line fi dj with
    | none => none
    | some (a, b) =>
      match PField.toInt a, PField.toFloat b with
      | some cur, some d =>
        let roi2 := if roi = nroi then 0 else roi
        let fc2 := if cur ≠ prev then fc + 1 else fc
        match setAt mat fc2 roi2 d with
        | none => none
        | some mat2 => fill_aux fi dj nroi rest (roi2 + 1) fc2 cur mat2
      | _, _ => none

/-- file_parse from parse.py: infer the shape, fill a frames-by-regions
matrix of cells initialised to Python None, and transpose it.  When
count_rows returns None, Python's xrange(None) raises a TypeError,
modelled as none. -/
def file_parse (f : PFile) (fh dte : String) : Option (List (List (Option ℚ))) :=
  match count_rows f fh dte with
  | none => none
  | some none => none
  | some (some nroi) =>
    match count_frames f fh dte with
    | none => none
    | some nframes =>
      match get_indices_from_header f.header fh dte with
      | none => none
      | some (fi, dj) =>
        match f.rows with
        | [] => some (zipTranspose (List.replicate nframes (List.replicate nroi none)))
        | line :: rest =>
          match extract_from_line line fi dj with
          | none => none
          | some (a, b) =>
            match PField.toInt a, PField.toFloat b with
            | some prev, some d =>
              match setAt (List.replicate nframes (List.replicate nroi none)) 0 0 d with
              | none => none
              | some mat1 => Option.map zipTranspose (fill_aux fi dj nroi rest 1 0 prev mat1)
            | _, _ => none

/-- Binary maximum, written with an explicit comparison so that it is
kernel-computable on ℚ; equal to max (see pymax_eq_max). -/
def pymax (a b : ℚ) : ℚ := if a ≤ b then b else a

/-- Binary minimum, written with an explicit comparison so that it is
kernel-computable on ℚ; equal to min (see pymin_eq_min). -/
def pymin (a b : ℚ) : ℚ := if b ≤ a then b else a

/-- Collect a row of cells when every cell is a float; a Python None cell
makes the py2 expression max(row) - min(row) raise a TypeError. -/
def allSome : List (Option ℚ) → Option (List ℚ)
  | [] => some []
  | none :: _ => none
  | some x :: rest => Option.map (fun l => x :: l) (allSome rest)

/-- Python max(row) - min(row) on a row of cells.  An empty row raises a
ValueError in max.  A row containing a Python None has min(row) = None
under the py2 ordering and the subtraction raises a TypeError.  Both are
modelled as none. -/
def rowValueRange (row : List (Option ℚ)) : Option ℚ :=
  match allSome row with
  | none => none
  | some [] => none
  | some (x :: xs) => some (xs.foldl pymax x - xs.foldl pymin x)

/-- select_cells_with_activity from parse.py: keep the rows whose value
range meets the activity threshold. -/
def select_cells_with_activity : List (List (Option ℚ)) → ℚ → Option (List (List (Option ℚ)))
  | [], _ => some []
  | row :: rest, t =>
    match rowValueRange row, select_cells_with_activity rest t with
    | some rg, some tail => some (if t ≤ rg then row :: tail else tail)
    | _, _ => none

/-- The Python None string. -/
def noneStr : String := "None"

/-- Python str applied to a matrix cell, classified as a field of the
written file: a float prints as a decimal literal, None prints as the
string None. -/
def strCell : Option ℚ → PField
  | some q => PField.floatF q
  | none => PField.strF noneStr

/-- Numeric value of a run of decimal digits, most significant first. -/
def digitsToNatAux : Nat → List Char → Nat
  | acc, [] => acc
  | acc, c :: cs => digitsToNatAux (acc * 10 + (c.toNat - 48)) cs

def digitsToNat (cs : List Char) : Nat := digitsToNatAux 0 cs

/-- An optional sign followed by a nonempty run of decimal digits. -/
def signedDigits : List Char → Option Int
  | [] => none
  | c :: rest =>
    let p : Int × List Char :=
      if c = '-' then (-1, rest) else if c = '+' then (1, rest) else (1, c :: rest)
    if p.2 ≠ [] ∧ p.2.all Char.isDigit then some (p.1 * digitsToNat p.2) else none

/-- Python int applied to a string: surrounding whitespace, an optional
sign, and a nonempty run of decimal digits. -/
def pyIntOfString (s : String) : Option Int :=
  signedDigits s.trim.toList

/-- Leading run of decimal digits of a character list, and the remainder. -/
def takeDigits : List Char → List Char × List Char
  | [] => ([], [])
  | c :: cs =>
    if c.isDigit then
      let p := takeDigits cs
      (c :: p.1, p.2)
    else ([], c :: cs)

/-- Optional exponent suffix after a mantissa of value m. -/
def floatTail (m : ℚ) : List Char → Option ℚ
  | [] => some m
  | e :: rest =>
    if e = 'e' ∨ e = 'E' then
      Option.map (fun ex => m * (10 : ℚ) ^ ex) (signedDigits rest)
    else none

/-- Unsigned float literal: a digit run with an optional fraction part,
or a bare fraction part, followed by an optional exponent. -/
def floatBody (body : List Char) : Option ℚ :=
  let p := takeDigits body
  match p.2 with
  | [] => if p.1 = [] then none else some (digitsToNat p.1 : ℚ)
  | '.' :: rest2 =>
    let q := takeDigits rest2
    if p.1 = [] ∧ q.1 = [] then none
    else
      floatTail ((digitsToNat p.1 : ℚ) + (digitsToNat q.1 : ℚ) / (10 : ℚ) ^ q.1.length) q.2
  | e :: rest2 =>
    if (e = 'e' ∨ e = 'E') ∧ p.1 ≠ [] then
      Option.map (fun ex => (digitsToNat p.1 : ℚ) * (10 : ℚ) ^ ex) (signedDigits rest2)
    else none

/-- Python float applied to a string: surrounding whitespace, an optional
sign, and a finite decimal literal with optional fraction and exponent.
(The infinity and nan spellings are float-accepted in Python but cannot
arise here: the writer only emits labels ending in a digit, decimal
renderings of the model's rational cells, and the string None.) -/
def pyFloatOfString (s : String) : Option ℚ :=
  match s.trim.toList with
  | [] => none
  | c :: cs =>
    if c = '-' then Option.map (fun q => -q) (floatBody cs)
    else if c = '+' then floatBody cs
    else floatBody (c :: cs)

/-- Parse class of a written string, mirroring the PField convention: an
int literal, else a float literal, else a plain string.  In particular a
row label such as roi0 is a plain string, but with an empty or numeric
label prefix the label is an integer literal. -/
def classify (s : String) : PField :=
  match pyIntOfString s with
  | some n => PField.intF n
  | none =>
    match pyFloatOfString s with
    | some q => PField.floatF q
    | none => PField.strF s

/-- Data lines written by write_file from parse.py: each line is the row
label, classified by how the label string would re-parse, followed by the
row's cells. -/
def write_rows (rl : String) : Nat → List (List (Option ℚ)) → List (List PField)
  | _, [] => []
  | idx, row :: rest =>
    (classify (rl ++ toString idx) :: row.map strCell) :: write_rows rl (idx + 1) rest

/-- write_file from parse.py, with the emitted tab-delimited text
represented by its field structure: the header line carries one column
label per column of the first row, and each data line carries a row label
followed by the row's cells.  An empty matrix makes data[0] raise an
IndexError, modelled as none. -/
def write_file (data : List (List (Option ℚ))) (rl cl : String) : Option PFile :=
  match data with
  | [] => none
  | first :: _ =>
    some ⟨(List.range first.length).map (fun i => cl ++ toString i), write_rows rl 0 data⟩

/-- Outcome of a run of main_run from parse.py: the files successfully written,
in order, and whether an exception escaped. -/
structure MainResult where
  writes : List (String × PFile)
  error : Bool
deriving DecidableEq

def rawSuffix : String := "_raw.txt"

def threshSuffix : String := "_threshholded.txt"

/-- main_run from parse.py: parse, write the raw matrix, filter, write the
filtered matrix. -/
def main_run (f : PFile) (fh dte : String) (t : ℚ) (rl cl out : String) : MainResult :=
  match count_rows f fh dte with
  | none => ⟨[], true⟩
  | some _ =>
    match count_frames f fh dte with
    | none => ⟨[], true⟩
    | some _ =>
      match file_parse f fh dte with
      | none => ⟨[], true⟩
      | some raw =>
        match write_file raw rl cl with
        | none => ⟨[], true⟩
        | some rawF =>
          match select_cells_with_activity raw t with
          | none => ⟨[(out ++ rawSuffix, rawF)], true⟩
          | some thr =>
            match write_file thr rl cl with
            | none => ⟨[(out ++ rawSuffix, rawF)], true⟩
            | some thrF =>
              ⟨[(out ++ rawSuffix, rawF), (out ++ threshSuffix, thrF)], false⟩

/-! Named constants of the script and concrete example inputs. -/

def sliceH : String := "Slice"

def intDenH : String := "IntDen"

def roiL : String := "roi"

def tL : String := "t"

def outName : String := "Results_parsed"

/-- The data lines of the worked example: header Slice and IntDen, two
regions, three frames, values 1, 5, 2, 9, 3, 20 in file order. -/
def exRows : List (List PField) :=
  [[PField.intF 1, PField.floatF 1], [PField.intF 1, PField.floatF 5],
   [PField.intF 2, PField.floatF 2], [PField.intF 2, PField.floatF 9],
   [PField.intF 3, PField.floatF 3], [PField.intF 3, PField.floatF 20]]

def exFile : PFile := ⟨[sliceH, intDenH], exRows⟩

/-- The matrix file_parse actually produces on exFile. -/
def exMatrix : List (List (Option ℚ)) :=
  [[some 1, some 2, some 3], [some 5, some 9, some 20]]

/-- A file whose two data lines carry the same frame id. -/
def oneFrameFile : PFile :=
  ⟨[sliceH, intDenH],
   [[PField.intF 1, PField.floatF 1], [PField.intF 1, PField.floatF 5]]⟩

/-! Round-robin input families and specification-side helpers. -/

/-- One frame's block of data lines: m lines sharing the frame id fr, each
line holding the frame field and the data field. -/
def blockLines (fr : Int) (vals : Nat → ℚ) : Nat → List (List PField)
  | 0 => []
  | m + 1 => [PField.intF fr, PField.floatF (vals 0)] :: blockLines fr (fun r => vals (r + 1)) m

/-- Data lines of a strict round-robin file: F frames in order, each a block
of R lines, with frame ids given by fid and values by val. -/
def rrRows (R : Nat) : Nat → (Nat → Int) → (Nat → Nat → ℚ) → List (List PField)
  | 0, _, _ => []
  | F + 1, fid, val =>
    blockLines (fid 0) (val 0) R ++ rrRows R F (fun k => fid (k + 1)) (fun k r => val (k + 1) r)

/-- A strict round-robin input file with a two-field header. -/
def rrFile (fh dte : String) (R F : Nat) (fid : Nat → Int) (val : Nat → Nat → ℚ) : PFile :=
  ⟨[fh, dte], rrRows R F fid val⟩

/-- Number of positions at which a frame id differs from its predecessor. -/
def transitions : List Int → Nat
  | [] => 0
  | [_] => 0
  | a :: b :: rest => (if b ≠ a then 1 else 0) + transitions (b :: rest)

/-- Maximum of a nonempty list of rationals (0 on the empty list, unused). -/
def rowMax : List ℚ → ℚ
  | [] => 0
  | x :: xs => xs.foldl pymax x

/-- Minimum of a nonempty list of rationals (0 on the empty list, unused). -/
def rowMin : List ℚ → ℚ
  | [] => 0
  | x :: xs => xs.foldl pymin x

/-- View a matrix of floats as a matrix of Python cells. -/
def asCells (m : List (List ℚ)) : List (List (Option ℚ)) :=
  m.map (fun row => row.map some)

/-- A list-of-lists matrix with nr rows, each of length nc. -/
def Shape (mat : List (List (Option ℚ))) (nr nc : Nat) : Prop :=
  mat.length = nr ∧ ∀ row ∈ mat, row.length = nc

/-! Helper lemmas about pyIndex. -/

theorem pyIndex_eq_none_iff (s : String) : ∀ (l : List String), pyIndex l s = none ↔ s ∉ l := by
  intro l
  induction l with
  | nil => simp [pyIndex]
  | cons x xs ih =>
    by_cases h : x = s
    · simp [pyIndex, h]
    · simp only [pyIndex, if_neg h, Option.map_eq_none', ih, List.mem_cons]
      constructor
      · intro hn hc
        rcases hc with hc | hc
        · exact h hc.symm
        · exact hn hc
      · intro hn
        exact fun hc => hn (Or.inr hc)

theorem pyIndex_spec (s : String) :
    ∀ (l : List String) (i : Nat), pyIndex l s = some i →
      l.get? i = some s ∧ ∀ k, k < i → l.get? k ≠ some s := by
  intro l
  induction l with
  | nil => intro i h; simp [pyIndex] at h
  | cons x xs ih =>
    intro i h
    by_cases hx : x = s
    · rw [pyIndex, if_pos hx] at h
      cases h
      subst hx
      exact ⟨rfl, fun k hk => absurd hk (by omega)⟩
    · rw [pyIndex, if_neg hx] at h
      rcases Option.map_eq_some'.mp h with ⟨j, hj, rfl⟩
      obtain ⟨h1, h2⟩ := ih j hj
      refine ⟨by simpa using h1, ?_⟩
      intro k hk
      cases k with
      | zero => simpa using fun hc => hx hc
      | succ k' => simpa using h2 k' (by omega)

/-- C5: get_indices_from_header returns the zero-based positions of the two
target field names (their first occurrences) among the header fields when
both are present, and raises (returns no positions) when either is absent. -/
theorem get_indices_spec (header : List String) (fh dte : String) :
    (fh ∈ header → dte ∈ header →
      ∃ i j, get_indices_from_header header fh dte = some (i, j) ∧
        header.get? i = some fh ∧ header.get? j = some dte ∧
        (∀ k, k < i → header.get? k ≠ some fh) ∧
        (∀ k, k < j → header.get? k ≠ some dte)) ∧
    ((fh ∉ header ∨ dte ∉ header) → get_indices_from_header header fh dte = none) := by
  constructor
  · intro h1 h2
    have hf : pyIndex header fh ≠ none := fun hc => ((pyIndex_eq_none_iff fh header).mp hc) h1
    have hd : pyIndex header dte ≠ none := fun hc => ((pyIndex_eq_none_iff dte header).mp hc) h2
    rcases hi : pyIndex header fh with _ | i
    · exact absurd hi hf
    rcases hj : pyIndex header dte with _ | j
    · exact absurd hj hd
    obtain ⟨hif, hik⟩ := pyIndex_spec fh header i hi
    obtain ⟨hjf, hjk⟩ := pyIndex_spec dte header j hj
    exact ⟨i, j, by rw [get_indices_from_header, hi, hj], hif, hjf, hik, hjk⟩
  · intro h
    rcases h with h | h
    · have hn : pyIndex header fh = none := (pyIndex_eq_none_iff fh header).mpr h
      rw [get_indices_from_header, hn]
    · have hn : pyIndex header dte = none := (pyIndex_eq_none_iff dte header).mpr h
      rw [get_indices_from_header, hn]
      rcases pyIndex header fh with _ | i <;> rfl

/-- Witness for C5 at the script's own header fields. -/
theorem get_indices_spec_witness :
    ∃ i j, get_indices_from_header [sliceH, intDenH] sliceH intDenH = some (i, j) ∧
      [sliceH, intDenH].get? i = some sliceH ∧ [sliceH, intDenH].get? j = some intDenH ∧
      (∀ k, k < i → [sliceH, intDenH].get? k ≠ some sliceH) ∧
      (∀ k, k < j → [sliceH, intDenH].get? k ≠ some intDenH) :=
  (get_indices_spec [sliceH, intDenH] sliceH intDenH).1 (by decide) (by decide)

/-- C2 counterexample: on the worked example file the code does not return
the matrix [[1,9,3],[5,2,20]] stated by the specification; the filled
frame-major matrix is [[1,5],[2,9],[3,20]] and its transpose is
[[1,2,3],[5,9,20]]. -/
theorem file_parse_example_cex :
    file_parse exFile sliceH intDenH = some exMatrix ∧
    exMatrix ≠ [[some 1, some 9, some 3], [some 5, some 2, some 20]] := by
  exact ⟨by decide, by decide⟩

/-- C2 amended: on the example input with header fields Slice and IntDen,
2 regions of interest, 3 frames and values 1, 5, 2, 9, 3, 20 in frame-major
order, file_parse returns [[1,2,3],[5,9,20]], and
select_cells_with_activity at threshold 15 keeps exactly the row
[5,9,20], whose value range is 15. -/
theorem file_parse_example_eval :
    file_parse exFile sliceH intDenH = some exMatrix ∧
    select_cells_with_activity exMatrix 15 = some [[some 5, some 9, some 20]] := by
  refine ⟨by decide, ?_⟩
  norm_num [exMatrix, select_cells_with_activity, rowValueRange, allSome, pymax, pymin]

/-! Helper lemmas for the activity filter. -/

theorem pymax_eq_max (a b : ℚ) : pymax a b = max a b := by
  rw [pymax, max_def]

theorem pymin_eq_min (a b : ℚ) : pymin a b = min a b := by
  rw [pymin, min_def]
  by_cases h1 : b ≤ a
  · by_cases h2 : a ≤ b
    · simp [h1, h2, le_antisymm h2 h1]
    · simp [h1, h2]
  · have h2 : a ≤ b := le_of_not_le h1
    simp [h1, h2]

theorem allSome_map_some (row : List ℚ) : allSome (row.map some) = some row := by
  induction row with
  | nil => rfl
  | cons x xs ih => simp [allSome, ih]

theorem rowValueRange_map_some (x : ℚ) (xs : List ℚ) :
    rowValueRange (some x :: xs.map some) = some (rowMax (x :: xs) - rowMin (x :: xs)) := by
  have h : allSome (some x :: xs.map some) = some (x :: xs) := by
    simp [allSome, allSome_map_some]
  rw [rowValueRange, h]
  rfl

theorem select_asCells_eq (t : ℚ) :
    ∀ (data : List (List ℚ)), (∀ row ∈ data, row ≠ []) →
      select_cells_with_activity (asCells data) t =
        some (asCells (data.filter (fun row => t ≤ rowMax row - rowMin row))) := by
  intro data
  induction data with
  | nil => intro _; rfl
  | cons row rest ih =>
    intro h
    obtain ⟨x, xs, rfl⟩ := List.exists_cons_of_ne_nil (h row (by simp))
    have ih' := ih (fun r hr => h r (by simp [hr]))
    simp only [asCells, List.map_cons] at ih' ⊢
    rw [select_cells_with_activity, rowValueRange_map_some, ih']
    by_cases hcmp : t ≤ rowMax (x :: xs) - rowMin (x :: xs)
    · simp [List.filter_cons, hcmp, asCells]
    · simp [List.filter_cons, hcmp, asCells]

/-- C3 amended: on a matrix all of whose rows are nonempty,
select_cells_with_activity returns exactly the subsequence of rows whose
maximum minus minimum is at least the threshold, in their original order,
and every excluded row has maximum minus minimum strictly below the
threshold.  (On a matrix containing an empty row the Python max call
raises a ValueError instead; see the counterexample.) -/
theorem select_filters_by_range (data : List (List ℚ)) (t : ℚ)
    (hne : ∀ row ∈ data, row ≠ []) :
    select_cells_with_activity (asCells data) t =
      some (asCells (data.filter (fun row => t ≤ rowMax row - rowMin row))) ∧
    ∀ row ∈ data, row ∉ data.filter (fun row => t ≤ rowMax row - rowMin row) →
      rowMax row - rowMin row < t := by
  refine ⟨select_asCells_eq t data hne, ?_⟩
  intro row hmem hnot
  by_contra hc
  push_neg at hc
  exact hnot (List.mem_filter.mpr ⟨hmem, by simpa using hc⟩)

/-- Witness for C3 on a concrete two-row matrix at threshold 15. -/
theorem select_filters_by_range_witness :
    select_cells_with_activity (asCells [[1], [5, 20]]) 15 =
      some (asCells (([[1], [5, 20]] : List (List ℚ)).filter
        (fun row => 15 ≤ rowMax row - rowMin row))) ∧
    ∀ row ∈ ([[1], [5, 20]] : List (List ℚ)),
      row ∉ ([[1], [5, 20]] : List (List ℚ)).filter
        (fun row => 15 ≤ rowMax row - rowMin row) →
      rowMax row - rowMin row < 15 :=
  select_filters_by_range [[1], [5, 20]] 15 (by decide)

/-- C3 counterexample: on the matrix whose single row is empty, the Python
max call raises a ValueError, so select_cells_with_activity produces no
output at all rather than the claimed filtered subsequence. -/
theorem select_empty_row_cex :
    select_cells_with_activity (asCells [[]]) 0 = none ∧
    select_cells_with_activity (asCells [[]]) 0 ≠
      some (asCells (([[]] : List (List ℚ)).filter
        (fun row => 0 ≤ rowMax row - rowMin row))) := by
  constructor
  · rfl
  · intro hc
    exact Option.noConfusion (hc.symm.trans rfl)

/-! Helper lemmas relating the scanning loops to the list of frame ids. -/

theorem count_frames_aux_spec (fi dj : Nat) (rows : List (List PField)) :
    ∀ (ids : List Int) (prev : Int) (c : Nat),
      rows.map (fun line => Option.map Prod.fst (extract_from_line line fi dj)) =
        ids.map (fun n => some (PField.intF n)) →
      count_frames_aux fi dj prev c rows = some (c + transitions (prev :: ids)) := by
  induction rows with
  | nil =>
    intro ids prev c h
    cases ids with
    | nil => simp [count_frames_aux, transitions]
    | cons n ids' => simp at h
  | cons line rest ih =>
    intro ids prev c h
    cases ids with
    | nil => simp at h
    | cons n ids' =>
      simp only [List.map_cons, List.cons.injEq] at h
      obtain ⟨h1, h2⟩ := h
      rcases hext : extract_from_line line fi dj with _ | ⟨a, b⟩
      · rw [hext] at h1; simp at h1
      · rw [hext] at h1
        simp only [Option.map_some'] at h1
        have ha : a = PField.intF n := by
          injection h1
        subst ha
        rw [count_frames_aux, hext]
        simp only [PField.toInt]
        by_cases hn : n ≠ prev
        · rw [if_pos hn, ih ids' n (c + 1) h2, transitions, if_pos hn]
          congr 1
          omega
        · rw [if_neg hn]
          push_neg at hn
          subst hn
          rw [ih ids' n c h2, transitions, if_neg (by simp)]
          congr 1
          omega

theorem count_frames_eq_one_add_transitions (f : PFile) (fh dte : String) (fi dj : Nat)
    (ids : List Int)
    (hidx : get_indices_from_header f.header fh dte = some (fi, dj))
    (hmap : f.rows.map (fun line => Option.map Prod.fst (extract_from_line line fi dj)) =
      ids.map (fun n => some (PField.intF n)))
    (hne : f.rows ≠ []) :
    count_frames f fh dte = some (1 + transitions ids) := by
  rcases hr : f.rows with _ | ⟨line, rest⟩
  · exact absurd hr hne
  · cases ids with
    | nil => rw [hr] at hmap; simp at hmap
    | cons n ids' =>
      rw [hr] at hmap
      simp only [List.map_cons, List.cons.injEq] at hmap
      obtain ⟨h1, h2⟩ := hmap
      rcases hext : extract_from_line line fi dj with _ | ⟨a, b⟩
      · rw [hext] at h1; simp at h1
      · rw [hext] at h1
        simp only [Option.map_some'] at h1
        have ha : a = PField.intF n := by injection h1
        subst ha
        simp only [count_frames, hidx, hr, hext, PField.toInt]
        rw [count_frames_aux_spec fi dj rest ids' n 1 h2]

/-- C8: on a file whose header lookup succeeds and whose data lines all
carry integer frame ids, count_frames returns one plus the number of data
lines whose frame id differs from the immediately preceding data line's
frame id, that is, the number of maximal runs of equal frame ids. -/
theorem count_frames_transition_count (f : PFile) (fh dte : String) (fi dj : Nat)
    (ids : List Int)
    (hidx : get_indices_from_header f.header fh dte = some (fi, dj))
    (hmap : f.rows.map (fun line => Option.map Prod.fst (extract_from_line line fi dj)) =
      ids.map (fun n => some (PField.intF n)))
    (hne : f.rows ≠ []) :
    count_frames f fh dte = some (1 + transitions ids) :=
  count_frames_eq_one_add_transitions f fh dte fi dj ids hidx hmap hne

/-- Witness for C8 on the worked example: frame ids 1,1,2,2,3,3 have two
transitions, so count_frames returns 3. -/
theorem count_frames_transition_count_witness :
    count_frames exFile sliceH intDenH = some (1 + transitions [1, 1, 2, 2, 3, 3]) :=
  count_frames_transition_count exFile sliceH intDenH 0 1 [1, 1, 2, 2, 3, 3]
    (by decide) (by decide) (by decide)

theorem count_rows_aux_all_eq (fi dj : Nat) (init : Int) (rows : List (List PField)) :
    ∀ (ids : List Int) (idx : Nat),
      rows.map (fun line => Option.map Prod.fst (extract_from_line line fi dj)) =
        ids.map (fun n => some (PField.intF n)) →
      (∀ n ∈ ids, n = init) →
      count_rows_aux fi dj init idx rows = some none := by
  induction rows with
  | nil => intro ids idx _ _; rfl
  | cons line rest ih =>
    intro ids idx h hall
    cases ids with
    | nil => simp at h
    | cons n ids' =>
      simp only [List.map_cons, List.cons.injEq] at h
      obtain ⟨h1, h2⟩ := h
      rcases hext : extract_from_line line fi dj with _ | ⟨a, b⟩
      · rw [hext] at h1; simp at h1
      · rw [hext] at h1
        simp only [Option.map_some'] at h1
        have ha : a = PField.intF n := by injection h1
        subst ha
        have hn : n = init := hall n (by simp)
        rw [count_rows_aux, hext]
        simp only [PField.toInt]
        rw [if_neg (by simp [hn])]
        exact ih ids' (idx + 1) h2 (fun m hm => hall m (by simp [hm]))

/-- C9: on a file all of whose data lines carry the same frame id,
count_rows scans to the end of the file without returning a count (Python
returns None), file_parse then fails on xrange(None), and a run of main
over such a file writes no output files and ends in an error. -/
theorem count_rows_single_frame_none (f : PFile) (fh dte : String) (fi dj : Nat)
    (ids : List Int) (c : Int)
    (hidx : get_indices_from_header f.header fh dte = some (fi, dj))
    (hmap : f.rows.map (fun line => Option.map Prod.fst (extract_from_line line fi dj)) =
      ids.map (fun n => some (PField.intF n)))
    (hne : f.rows ≠ [])
    (hall : ∀ n ∈ ids, n = c) :
    count_rows f fh dte = some none ∧ file_parse f fh dte = none ∧
    ∀ (t : ℚ) (rl cl out : String),
      (main_run f fh dte t rl cl out).writes = [] ∧
      (main_run f fh dte t rl cl out).error = true := by
  have hcf : count_frames f fh dte = some (1 + transitions ids) :=
    count_frames_eq_one_add_transitions f fh dte fi dj ids hidx hmap hne
  have hcr : count_rows f fh dte = some none := by
    rcases hr : f.rows with _ | ⟨line, rest⟩
    · exact absurd hr hne
    · rw [hr] at hmap
      cases ids with
      | nil => simp at hmap
      | cons n ids' =>
        simp only [List.map_cons, List.cons.injEq] at hmap
        obtain ⟨h1, h2⟩ := hmap
        rcases hext : extract_from_line line fi dj with _ | ⟨a, b⟩
        · rw [hext] at h1; simp at h1
        · rw [hext] at h1
          simp only [Option.map_some'] at h1
          have ha : a = PField.intF n := by injection h1
          subst ha
          simp only [count_rows, hidx, hr, hext, PField.toInt]
          have hn : n = c := hall n (by simp)
          subst hn
          exact count_rows_aux_all_eq fi dj n rest ids' 2 h2
            (fun m hm => (hall m (by simp [hm])).trans (hall n (by simp)).symm)
  have hfp : file_parse f fh dte = none := by
    rw [file_parse, hcr]
  refine ⟨hcr, hfp, ?_⟩
  intro t rl cl out
  constructor <;> simp [main_run, hcr, hcf, hfp]

/-- Witness for C9 on a two-line single-frame file. -/
theorem count_rows_single_frame_none_witness :
    count_rows oneFrameFile sliceH intDenH = some none ∧
    file_parse oneFrameFile sliceH intDenH = none ∧
    (main_run oneFrameFile sliceH intDenH 15 roiL tL outName).writes = [] ∧
    (main_run oneFrameFile sliceH intDenH 15 roiL tL outName).error = true := by
  obtain ⟨h1, h2, h3⟩ := count_rows_single_frame_none oneFrameFile sliceH intDenH 0 1
    [1, 1] 1 (by decide) (by decide) (by decide) (by decide)
  exact ⟨h1, h2, (h3 15 roiL tL outName).1, (h3 15 roiL tL outName).2⟩

/-! Helper lemmas about the writer. -/

theorem write_rows_length (rl : String) :
    ∀ (s : Nat) (data : List (List (Option ℚ))), (write_rows rl s data).length = data.length := by
  intro s data
  induction data generalizing s with
  | nil => rfl
  | cons row rest ih => simp [write_rows, ih]

theorem write_rows_get (rl : String) :
    ∀ (data : List (List (Option ℚ))) (s i : Nat) (row : List (Option ℚ)),
      data.get? i = some row →
      (write_rows rl s data).get? i =
        some (classify (rl ++ toString (s + i)) :: row.map strCell) := by
  intro data
  induction data with
  | nil => intro s i row h; simp at h
  | cons r rest ih =>
    intro s i row h
    cases i with
    | zero =>
      have h' : some r = some row := h
      injection h' with h''
      subst h''
      simp [write_rows]
    | succ i' =>
      have h' : rest.get? i' = some row := h
      have hres := ih (s + 1) i' row h'
      have heq : s + 1 + i' = s + (i' + 1) := by omega
      rw [heq] at hres
      rw [write_rows]
      exact hres

theorem write_rows_drop_one (rl : String) :
    ∀ (s : Nat) (data : List (List (Option ℚ))),
      (write_rows rl s data).map (fun line => line.drop 1) =
        data.map (fun row => row.map strCell) := by
  intro s data
  induction data generalizing s with
  | nil => rfl
  | cons row rest ih =>
    rw [write_rows]
    simp only [List.map_cons, List.drop_succ_cons, List.drop_zero]
    rw [ih (s + 1)]

theorem get_indices_none_of_missing (header : List String) (fh dte : String)
    (h : fh ∉ header ∨ dte ∉ header) :
    get_indices_from_header header fh dte = none := by
  rcases h with h | h
  · rw [get_indices_from_header, (pyIndex_eq_none_iff fh header).mpr h]
  · rw [get_indices_from_header, (pyIndex_eq_none_iff dte header).mpr h]
    rcases pyIndex header fh with _ | i <;> rfl

/-- file_parse fails outright when either requested field name is absent
from the file's header: the header lookup in count_rows raises. -/
theorem file_parse_missing_header (f : PFile) (fh dte : String)
    (h : fh ∉ f.header ∨ dte ∉ f.header) :
    file_parse f fh dte = none := by
  have hgi := get_indices_none_of_missing f.header fh dte h
  have hcr : count_rows f fh dte = none := by
    simp [count_rows, hgi]
  rw [file_parse, hcr]

/-- C6: for a nonempty rectangular matrix, write_file emits a header line
holding, for each column index i below the column count, the label formed
by the column prefix followed by i, and one data line per matrix row whose
first field is the row prefix followed by the row's index (classified by
how that label string would re-parse), followed by that row's values in
order. -/
theorem write_file_format (data : List (List (Option ℚ))) (rl cl : String) (ncol : Nat)
    (hne : data ≠ []) (hrect : ∀ row ∈ data, row.length = ncol) :
    ∃ out, write_file data rl cl = some out ∧
      out.header = (List.range ncol).map (fun i => cl ++ toString i) ∧
      out.rows.length = data.length ∧
      ∀ i row, data.get? i = some row →
        out.rows.get? i = some (classify (rl ++ toString i) :: row.map strCell) := by
  rcases data with _ | ⟨first, rest⟩
  · exact absurd rfl hne
  · refine ⟨_, rfl, ?_, ?_, ?_⟩
    · rw [hrect first (by simp)]
    · exact write_rows_length rl 0 (first :: rest)
    · intro i row h
      simpa using write_rows_get rl (first :: rest) 0 i row h

/-- Witness for C6 on a one-by-one matrix. -/
theorem write_file_format_witness :
    ∃ out, write_file [[some 1]] roiL tL = some out ∧
      out.header = (List.range 1).map (fun i => tL ++ toString i) ∧
      out.rows.length = ([[some 1]] : List (List (Option ℚ))).length ∧
      ∀ i row, ([[some 1]] : List (List (Option ℚ))).get? i = some row →
        out.rows.get? i = some (classify (roiL ++ toString i) :: row.map strCell) :=
  write_file_format [[some 1]] roiL tL 1 (by simp) (by simp)

/-- C4 counterexample: the matrix file_parse produces on the worked example
writes successfully, but re-reading the written file with file_parse (with
the same field names) yields nothing: the written header holds only the
column labels t0, t1, t2, so the header lookup for Slice raises. -/
theorem write_roundtrip_cex :
    file_parse exFile sliceH intDenH = some exMatrix ∧
    (write_file exMatrix roiL tL).isSome = true ∧
    Option.bind (write_file exMatrix roiL tL) (fun w => file_parse w sliceH intDenH) = none := by
  exact ⟨by decide, by decide, by decide⟩

/-- C4 amended: writing any nonempty matrix succeeds and the written data
lines carry exactly the matrix's values after the leading row label, so
the numbers are preserved in the file; but the written header consists
only of column labels, and whenever either of the original field names is
absent from it — as with the script's Slice and IntDen against the labels
t0, t1, ... — re-reading the written file with file_parse fails, so the
round trip does not hold. -/
theorem write_preserves_but_no_reread (data : List (List (Option ℚ))) (rl cl fh dte : String)
    (hne : data ≠ []) :
    ∃ out, write_file data rl cl = some out ∧
      out.rows.map (fun line => line.drop 1) = data.map (fun row => row.map strCell) ∧
      ((fh ∉ out.header ∨ dte ∉ out.header) → file_parse out fh dte = none) := by
  rcases data with _ | ⟨first, rest⟩
  · exact absurd rfl hne
  · refine ⟨_, rfl, write_rows_drop_one rl 0 (first :: rest), ?_⟩
    intro hmiss
    exact file_parse_missing_header _ fh dte hmiss

/-- Witness for C4 on a one-row matrix with the script's field names. -/
theorem write_preserves_but_no_reread_witness :
    ∃ out, write_file [[some 1]] roiL tL = some out ∧
      out.rows.map (fun line => line.drop 1) =
        ([[some 1]] : List (List (Option ℚ))).map (fun row => row.map strCell) ∧
      ((sliceH ∉ out.header ∨ intDenH ∉ out.header) → file_parse out sliceH intDenH = none) :=
  write_preserves_but_no_reread [[some 1]] roiL tL sliceH intDenH (by simp)

/-- C10: write_file raises an IndexError on the empty matrix (data[0] on
an empty list) instead of writing a header-only file; consequently, on the
worked example with threshold 16 the activity filter keeps no rows and the
run of main writes the raw output file but fails while writing the
thresholded one. -/
theorem write_file_empty_fails :
    (∀ rl cl : String, write_file ([] : List (List (Option ℚ))) rl cl = none) ∧
    select_cells_with_activity exMatrix 16 = some [] ∧
    (main_run exFile sliceH intDenH 16 roiL tL outName).writes.map Prod.fst =
      [outName ++ rawSuffix] ∧
    (main_run exFile sliceH intDenH 16 roiL tL outName).error = true := by
  have h1 : count_rows exFile sliceH intDenH = some (some 2) := by decide
  have h2 : count_frames exFile sliceH intDenH = some 3 := by decide
  have h3 : file_parse exFile sliceH intDenH =
      some [[some 1, some 2, some 3], [some 5, some 9, some 20]] := by decide
  have h5 : select_cells_with_activity
      [[some 1, some 2, some 3], [some 5, some 9, some 20]] 16 = some [] := by
    norm_num [select_cells_with_activity, rowValueRange, allSome, pymax, pymin]
  refine ⟨fun rl cl => rfl, h5, ?_, ?_⟩ <;>
    simp [main_run, h1, h2, h3, h5, write_file]

/-- C7 counterexample: this run of main (threshold 16 on the worked
example) completes having written exactly one output file, not two: the
thresholded write fails on the empty filtered matrix. -/
theorem main_partial_write_cex :
    (main_run exFile sliceH intDenH 16 roiL tL outName).writes.length = 1 := by
  have h1 : count_rows exFile sliceH intDenH = some (some 2) := by decide
  have h2 : count_frames exFile sliceH intDenH = some 3 := by decide
  have h3 : file_parse exFile sliceH intDenH =
      some [[some 1, some 2, some 3], [some 5, some 9, some 20]] := by decide
  have h5 : select_cells_with_activity
      [[some 1, some 2, some 3], [some 5, some 9, some 20]] 16 = some [] := by
    norm_num [select_cells_with_activity, rowValueRange, allSome, pymax, pymin]
  simp [main_run, h1, h2, h3, h5, write_file]

/-- C7 amended: every run of main that completes without an exception
writes exactly two output files: the full parsed matrix to the name with
suffix _raw.txt and the filtered matrix to the name with suffix
_threshholded.txt.  (A failing run may write fewer files; see the
counterexample.) -/
theorem main_success_two_files (f : PFile) (fh dte : String) (t : ℚ) (rl cl out : String)
    (h : (main_run f fh dte t rl cl out).error = false) :
    ∃ raw thr rawF thrF,
      file_parse f fh dte = some raw ∧
      write_file raw rl cl = some rawF ∧
      select_cells_with_activity raw t = some thr ∧
      write_file thr rl cl = some thrF ∧
      (main_run f fh dte t rl cl out).writes =
        [(out ++ rawSuffix, rawF), (out ++ threshSuffix, thrF)] := by
  rcases h1 : count_rows f fh dte with _ | a
  · simp [main_run, h1] at h
  · rcases h2 : count_frames f fh dte with _ | nf
    · simp [main_run, h1, h2] at h
    · rcases h3 : file_parse f fh dte with _ | raw
      · simp [main_run, h1, h2, h3] at h
      · rcases h4 : write_file raw rl cl with _ | rawF
        · simp [main_run, h1, h2, h3, h4] at h
        · rcases h5 : select_cells_with_activity raw t with _ | thr
          · simp [main_run, h1, h2, h3, h4, h5] at h
          · rcases h6 : write_file thr rl cl with _ | thrF
            · simp [main_run, h1, h2, h3, h4, h5, h6] at h
            · exact ⟨raw, thr, rawF, thrF, rfl, h4, h5, h6,
                by simp [main_run, h1, h2, h3, h4, h5, h6]⟩

/-- Witness for C7 on the worked example at threshold 15, where the filter
keeps one row and the run completes. -/
theorem main_success_two_files_witness :
    ∃ raw thr rawF thrF,
      file_parse exFile sliceH intDenH = some raw ∧
      write_file raw roiL tL = some rawF ∧
      select_cells_with_activity raw 15 = some thr ∧
      write_file thr roiL tL = some thrF ∧
      (main_run exFile sliceH intDenH 15 roiL tL outName).writes =
        [(outName ++ rawSuffix, rawF), (outName ++ threshSuffix, thrF)] :=
  main_success_two_files exFile sliceH intDenH 15 roiL tL outName (by
    have h1 : count_rows exFile sliceH intDenH = some (some 2) := by decide
    have h2 : count_frames exFile sliceH intDenH = some 3 := by decide
    have h3 : file_parse exFile sliceH intDenH =
        some [[some 1, some 2, some 3], [some 5, some 9, some 20]] := by decide
    have h5 : select_cells_with_activity
        [[some 1, some 2, some 3], [some 5, some 9, some 20]] 15 =
        some [[some 5, some 9, some 20]] := by
      norm_num [select_cells_with_activity, rowValueRange, allSome, pymax, pymin]
    simp [main_run, h1, h2, h3, h5, write_file])

/-! Helper lemmas for strict round-robin files. -/

theorem extract_pair (a b : PField) : extract_from_line [a, b] 0 1 = some (a, b) := rfl

theorem get_indices_pair (fh dte : String) (hne : fh ≠ dte) :
    get_indices_from_header [fh, dte] fh dte = some (0, 1) := by
  simp [get_indices_from_header, pyIndex, hne]

theorem count_rows_aux_skip (init : Int) :
    ∀ (m : Nat) (vals : Nat → ℚ) (idx : Nat) (rest : List (List PField)),
      count_rows_aux 0 1 init idx (blockLines init vals m ++ rest) =
      count_rows_aux 0 1 init (idx + m) rest := by
  intro m
  induction m with
  | zero => intro vals idx rest; simp [blockLines]
  | succ m' ih =>
    intro vals idx rest
    rw [blockLines, List.cons_append, count_rows_aux, extract_pair]
    simp only [PField.toInt]
    rw [if_neg (by simp), ih (fun r => vals (r + 1)) (idx + 1) rest]
    congr 1
    omega

theorem count_rows_rr (fh dte : String) (R' F'' : Nat) (fid : Nat → Int)
    (val : Nat → Nat → ℚ) (hne : fh ≠ dte) (h01 : fid 1 ≠ fid 0) :
    count_rows (rrFile fh dte (R' + 1) (F'' + 2) fid val) fh dte =
      some (some (R' + 1)) := by
  simp only [count_rows, rrFile, get_indices_pair fh dte hne]
  rw [show rrRows (R' + 1) (F'' + 2) fid val =
      [PField.intF (fid 0), PField.floatF (val 0 0)] ::
        (blockLines (fid 0) (fun r => val 0 (r + 1)) R' ++
          rrRows (R' + 1) (F'' + 1) (fun k => fid (k + 1)) (fun k r => val (k + 1) r))
    from by rw [rrRows, blockLines, List.cons_append]]
  simp only [extract_pair, PField.toInt]
  rw [count_rows_aux_skip (fid 0) R' (fun r => val 0 (r + 1)) 2 _]
  rw [show rrRows (R' + 1) (F'' + 1) (fun k => fid (k + 1)) (fun k r => val (k + 1) r) =
      [PField.intF (fid 1), PField.floatF (val 1 0)] ::
        (blockLines (fid 1) (fun r => val 1 (r + 1)) R' ++
          rrRows (R' + 1) F'' (fun k => fid (k + 2)) (fun k r => val (k + 2) r))
    from by rw [rrRows, blockLines, List.cons_append]]
  rw [count_rows_aux, extract_pair]
  simp only [PField.toInt]
  rw [if_pos h01]
  congr 2
  omega

theorem count_frames_aux_skip (prev : Int) :
    ∀ (m : Nat) (vals : Nat → ℚ) (c : Nat) (rest : List (List PField)),
      count_frames_aux 0 1 prev c (blockLines prev vals m ++ rest) =
      count_frames_aux 0 1 prev c rest := by
  intro m
  induction m with
  | zero => intro vals c rest; simp [blockLines]
  | succ m' ih =>
    intro vals c rest
    rw [blockLines, List.cons_append, count_frames_aux, extract_pair]
    simp only [PField.toInt]
    rw [if_neg (by simp)]
    exact ih (fun r => vals (r + 1)) c rest

theorem count_frames_aux_rr (R' : Nat) :
    ∀ (F : Nat) (fid : Nat → Int) (val : Nat → Nat → ℚ) (prev : Int) (c : Nat),
      (F = 0 ∨ fid 0 ≠ prev) →
      (∀ k, k + 1 < F → fid (k + 1) ≠ fid k) →
      count_frames_aux 0 1 prev c (rrRows (R' + 1) F fid val) = some (c + F) := by
  intro F
  induction F with
  | zero => intro fid val prev c _ _; simp [rrRows, count_frames_aux]
  | succ F' ih =>
    intro fid val prev c h0 hadj
    have hfid : fid 0 ≠ prev := by
      rcases h0 with h | h
      · exact absurd h (by omega)
      · exact h
    rw [show rrRows (R' + 1) (F' + 1) fid val =
        [PField.intF (fid 0), PField.floatF (val 0 0)] ::
          (blockLines (fid 0) (fun r => val 0 (r + 1)) R' ++
            rrRows (R' + 1) F' (fun k => fid (k + 1)) (fun k r => val (k + 1) r))
      from by rw [rrRows, blockLines, List.cons_append]]
    rw [count_frames_aux, extract_pair]
    simp only [PField.toInt]
    rw [if_pos hfid]
    rw [count_frames_aux_skip (fid 0) R' (fun r => val 0 (r + 1)) (c + 1) _]
    rw [ih (fun k => fid (k + 1)) (fun k r => val (k + 1) r) (fid 0) (c + 1) ?_ ?_]
    · congr 1
      omega
    · cases F' with
      | zero => exact Or.inl rfl
      | succ F2 => exact Or.inr (hadj 0 (by omega))
    · intro k hk
      exact hadj (k + 1) (by omega)

theorem count_frames_rr (fh dte : String) (R' F' : Nat) (fid : Nat → Int)
    (val : Nat → Nat → ℚ) (hne : fh ≠ dte)
    (hadj : ∀ k, k + 1 < F' + 1 → fid (k + 1) ≠ fid k) :
    count_frames (rrFile fh dte (R' + 1) (F' + 1) fid val) fh dte = some (F' + 1) := by
  simp only [count_frames, rrFile, get_indices_pair fh dte hne]
  rw [show rrRows (R' + 1) (F' + 1) fid val =
      [PField.intF (fid 0), PField.floatF (val 0 0)] ::
        (blockLines (fid 0) (fun r => val 0 (r + 1)) R' ++
          rrRows (R' + 1) F' (fun k => fid (k + 1)) (fun k r => val (k + 1) r))
    from by rw [rrRows, blockLines, List.cons_append]]
  simp only [extract_pair, PField.toInt]
  rw [count_frames_aux_skip (fid 0) R' (fun r => val 0 (r + 1)) 1 _]
  rw [count_frames_aux_rr R' F' (fun k => fid (k + 1)) (fun k r => val (k + 1) r) (fid 0) 1 ?_ ?_]
  · congr 1
    omega
  · cases F' with
    | zero => exact Or.inl rfl
    | succ F2 => exact Or.inr (hadj 0 (by omega))
  · intro k hk
    exact hadj (k + 1) (by omega)

theorem setAt_shape (mat : List (List (Option ℚ))) (nf nc i j : Nat) (v : ℚ)
    (hs : Shape mat nf nc) (hi : i < nf) (hj : j < nc) :
    ∃ mat2, setAt mat i j v = some mat2 ∧ Shape mat2 nf nc := by
  obtain ⟨hlen, hrows⟩ := hs
  have hi2 : i < mat.length := by omega
  rcases hrow : mat.get? i with _ | row
  · rw [List.get?_eq_none] at hrow
    omega
  · have hrmem : row ∈ mat := List.get?_mem hrow
    have hrlen : row.length = nc := hrows row hrmem
    simp only [setAt, hrow]
    rw [if_pos (by omega : j < row.length)]
    refine ⟨_, rfl, ?_, ?_⟩
    · simp [hlen]
    · intro r hr
      rcases List.mem_or_eq_of_mem_set hr with h | h
      · exact hrows r h
      · subst h
        simp [hrlen]

theorem fill_within (nf R' : Nat) :
    ∀ (m : Nat) (vals : Nat → ℚ) (rest : List (List PField)) (roi fc : Nat) (fr : Int)
      (mat : List (List (Option ℚ))),
      Shape mat nf (R' + 1) → fc < nf → roi + m = R' + 1 →
      ∃ mat2, fill_aux 0 1 (R' + 1) (blockLines fr vals m ++ rest) roi fc fr mat =
          fill_aux 0 1 (R' + 1) rest (R' + 1) fc fr mat2 ∧ Shape mat2 nf (R' + 1) := by
  intro m
  induction m with
  | zero =>
    intro vals rest roi fc fr mat hs _ hroi
    have h1 : roi = R' + 1 := by omega
    subst h1
    exact ⟨mat, by simp [blockLines], hs⟩
  | succ m' ih =>
    intro vals rest roi fc fr mat hs hfc hroi
    have hroi_lt : roi < R' + 1 := by omega
    rw [blockLines, List.cons_append, fill_aux, extract_pair]
    simp only [PField.toInt, PField.toFloat]
    rw [if_neg (by omega : ¬ roi = R' + 1), if_neg (by simp : ¬ fr ≠ fr)]
    obtain ⟨matA, hset, hsA⟩ := setAt_shape mat nf (R' + 1) fc roi (vals 0) hs hfc hroi_lt
    rw [hset]
    obtain ⟨mat2, heq, hs2⟩ :=
      ih (fun r => vals (r + 1)) rest (roi + 1) fc fr matA hsA hfc (by omega)
    exact ⟨mat2, heq, hs2⟩

theorem fill_blocks (nf R' : Nat) :
    ∀ (F : Nat) (fid : Nat → Int) (val : Nat → Nat → ℚ) (mat : List (List (Option ℚ)))
      (fc : Nat) (prev : Int),
      Shape mat nf (R' + 1) → fc + F < nf →
      (F = 0 ∨ fid 0 ≠ prev) →
      (∀ k, k + 1 < F → fid (k + 1) ≠ fid k) →
      ∃ mat2, fill_aux 0 1 (R' + 1) (rrRows (R' + 1) F fid val) (R' + 1) fc prev mat =
          some mat2 ∧ Shape mat2 nf (R' + 1) := by
  intro F
  induction F with
  | zero =>
    intro fid val mat fc prev hs _ _ _
    exact ⟨mat, by simp [rrRows, fill_aux], hs⟩
  | succ F' ih =>
    intro fid val mat fc prev hs hlt h0 hadj
    have hfid : fid 0 ≠ prev := by
      rcases h0 with h | h
      · exact absurd h (by omega)
      · exact h
    rw [show rrRows (R' + 1) (F' + 1) fid val =
        [PField.intF (fid 0), PField.floatF (val 0 0)] ::
          (blockLines (fid 0) (fun r => val 0 (r + 1)) R' ++
            rrRows (R' + 1) F' (fun k => fid (k + 1)) (fun k r => val (k + 1) r))
      from by rw [rrRows, blockLines, List.cons_append]]
    rw [fill_aux, extract_pair]
    simp only [PField.toInt, PField.toFloat]
    rw [if_pos hfid, if_pos True.intro]
    obtain ⟨matA, hset, hsA⟩ :=
      setAt_shape mat nf (R' + 1) (fc + 1) 0 (val 0 0) hs (by omega) (by omega)
    simp only [hset]
    obtain ⟨matB, heqB, hsB⟩ := fill_within nf R' R' (fun r => val 0 (r + 1))
      (rrRows (R' + 1) F' (fun k => fid (k + 1)) (fun k r => val (k + 1) r))
      (0 + 1) (fc + 1) (fid 0) matA hsA (by omega) (by omega)
    rw [heqB]
    have h02 : F' = 0 ∨ (fun k => fid (k + 1)) 0 ≠ fid 0 := by
      cases F' with
      | zero => exact Or.inl rfl
      | succ F2 => exact Or.inr (hadj 0 (by omega))
    obtain ⟨mat2, heq2, hs2⟩ := ih (fun k => fid (k + 1)) (fun k r => val (k + 1) r)
      matB (fc + 1) (fid 0) hsB (by omega) h02 (fun k hk => hadj (k + 1) (by omega))
    exact ⟨mat2, heq2, hs2⟩

theorem foldl_min_const (nc : Nat) :
    ∀ (l : List Nat), (∀ x ∈ l, x = nc) → l.foldl Nat.min nc = nc := by
  intro l
  induction l with
  | nil => intro _; rfl
  | cons x xs ih =>
    intro h
    have hx : x = nc := h x (by simp)
    rw [List.foldl_cons, hx, show Nat.min nc nc = nc from min_self nc]
    exact ih (fun y hy => h y (by simp [hy]))

theorem filterMap_get_length (j : Nat) :
    ∀ (mat : List (List (Option ℚ))), (∀ row ∈ mat, j < row.length) →
      (mat.filterMap (fun row => row.get? j)).length = mat.length := by
  intro mat
  induction mat with
  | nil => intro _; rfl
  | cons row rest ih =>
    intro h
    rcases hg : row.get? j with _ | v
    · rw [List.get?_eq_none] at hg
      have := h row (by simp)
      omega
    · rw [List.filterMap_cons, hg]
      simp only [List.length_cons]
      rw [ih (fun r hr => h r (by simp [hr]))]

theorem zipTranspose_shape (mat : List (List (Option ℚ))) (nf nc : Nat)
    (hs : Shape mat nf nc) (hnf : 1 ≤ nf) :
    (zipTranspose mat).length = nc ∧ ∀ row ∈ zipTranspose mat, row.length = nf := by
  obtain ⟨hlen, hrows⟩ := hs
  rcases mat with _ | ⟨first, rest⟩
  · simp at hlen
    omega
  · rw [zipTranspose]
    have hfirst : first.length = nc := hrows first (by simp)
    have hmin : (rest.map List.length).foldl Nat.min first.length = nc := by
      rw [hfirst]
      refine foldl_min_const nc _ ?_
      intro x hx
      obtain ⟨r, hr, rfl⟩ := List.mem_map.mp hx
      exact hrows r (by simp [hr])
    rw [hmin]
    constructor
    · simp
    · intro row hrow
      obtain ⟨j, hj, rfl⟩ := List.mem_map.mp hrow
      have hjnc : j < nc := List.mem_range.mp hj
      rw [filterMap_get_length j (first :: rest) ?_]
      · exact hlen
      · intro r hr
        rw [hrows r hr]
        exact hjnc

/-- C1 amended: for a strict round-robin input file with R at least 1
regions of interest per frame and F at least 2 frames (adjacent frames
carrying distinct frame ids), file_parse returns a matrix with exactly R
rows, each of exactly F entries.  (For F = 1 no matrix is returned at
all; see the counterexample.) -/
theorem file_parse_round_robin_dims (fh dte : String) (R F : Nat) (fid : Nat → Int)
    (val : Nat → Nat → ℚ) (hne : fh ≠ dte) (hR : 1 ≤ R) (hF : 2 ≤ F)
    (hadj : ∀ k, k + 1 < F → fid (k + 1) ≠ fid k) :
    ∃ m, file_parse (rrFile fh dte R F fid val) fh dte = some m ∧
      m.length = R ∧ ∀ row ∈ m, row.length = F := by
  obtain ⟨R', rfl⟩ : ∃ R', R = R' + 1 := ⟨R - 1, by omega⟩
  obtain ⟨F'', rfl⟩ : ∃ F'', F = F'' + 2 := ⟨F - 2, by omega⟩
  have hcr := count_rows_rr fh dte R' F'' fid val hne (hadj 0 (by omega))
  have hcf : count_frames (rrFile fh dte (R' + 1) (F'' + 2) fid val) fh dte =
      some (F'' + 2) := count_frames_rr fh dte R' (F'' + 1) fid val hne hadj
  simp only [file_parse, hcr, hcf]
  simp only [rrFile, get_indices_pair fh dte hne]
  rw [show rrRows (R' + 1) (F'' + 2) fid val =
      [PField.intF (fid 0), PField.floatF (val 0 0)] ::
        (blockLines (fid 0) (fun r => val 0 (r + 1)) R' ++
          rrRows (R' + 1) (F'' + 1) (fun k => fid (k + 1)) (fun k r => val (k + 1) r))
    from by rw [rrRows, blockLines, List.cons_append]]
  simp only [extract_pair, PField.toInt, PField.toFloat]
  have hs0 : Shape (List.replicate (F'' + 2) (List.replicate (R' + 1) (none : Option ℚ)))
      (F'' + 2) (R' + 1) := by
    constructor
    · simp
    · intro row hrow
      rw [List.eq_of_mem_replicate hrow]
      simp
  obtain ⟨mat1, hset1, hs1⟩ :=
    setAt_shape _ (F'' + 2) (R' + 1) 0 0 (val 0 0) hs0 (by omega) (by omega)
  simp only [hset1]
  obtain ⟨matA, heqA, hsA⟩ := fill_within (F'' + 2) R' R' (fun r => val 0 (r + 1))
    (rrRows (R' + 1) (F'' + 1) (fun k => fid (k + 1)) (fun k r => val (k + 1) r))
    1 0 (fid 0) mat1 hs1 (by omega) (by omega)
  rw [heqA]
  obtain ⟨matB, heqB, hsB⟩ := fill_blocks (F'' + 2) R' (F'' + 1) (fun k => fid (k + 1))
    (fun k r => val (k + 1) r) matA 0 (fid 0) hsA (by omega)
    (Or.inr (hadj 0 (by omega))) (fun k hk => hadj (k + 1) (by omega))
  rw [heqB]
  obtain ⟨hlen, hrows⟩ := zipTranspose_shape matB (F'' + 2) (R' + 1) hsB (by omega)
  exact ⟨zipTranspose matB, rfl, hlen, hrows⟩

/-- C1 counterexample: the strict round-robin file with R = 1 region and
F = 1 frame (a single data line) yields no matrix at all: count_rows
returns Python None and file_parse fails on xrange(None), so the claimed
1-by-1 matrix is not produced. -/
theorem file_parse_round_robin_cex :
    file_parse (rrFile sliceH intDenH 1 1 (fun _ => 1) (fun _ _ => 0)) sliceH intDenH =
      none := by
  decide

/-- Witness for C1 with two regions and two frames. -/
theorem file_parse_round_robin_dims_witness :
    ∃ m, file_parse (rrFile sliceH intDenH 2 2 (fun k => (k : Int)) (fun _ _ => 0))
        sliceH intDenH = some m ∧
      m.length = 2 ∧ ∀ row ∈ m, row.length = 2 :=
  file_parse_round_robin_dims sliceH intDenH 2 2 (fun k => (k : Int)) (fun _ _ => 0)
    (by decide) (by omega) (by omega) (fun k _ => by push_cast; omega)
